import Mathlib

/-!
Verification model of the Kelly poem chatbot (`app.py`).

Strings are modelled as `List Char`.  Python's `str.splitlines` is modelled
as splitting on the newline character, `str.strip` as trimming
`Char.isWhitespace` characters at both ends, and `str.split()` as splitting
on maximal whitespace runs.  Regular-expression operations of the source
(`re.split` on the escaped marker followed by optional whitespace,
`re.match` of the role-label pattern) are modelled directly as executable
scanning functions with the same observable behaviour on newline-terminated
text.  External effects (the OpenAI client, the transformers pipeline,
Streamlit widgets) are passed in as explicit parameters or outcome values.
-/

namespace Kelly

/-- Model of a Python string: a list of characters. -/
abbrev Str := List Char

/-- Whitespace test used for stripping and splitting (models `str.strip`,
`str.split`, and the regex class backslash-s on the characters the program
manipulates). -/
def isWS (c : Char) : Bool := c.isWhitespace

/-- Drop leading whitespace (left part of Python `str.strip`). -/
def trimL (s : Str) : Str := s.dropWhile isWS

/-- Drop trailing whitespace (right part of Python `str.strip`). -/
def trimR : Str → Str
  | [] => []
  | c :: t =>
    match trimR t with
    | [] => if isWS c then [] else [c]
    | h :: r => c :: h :: r

/-- Model of Python `str.strip()`. -/
def trim (s : Str) : Str := trimR (trimL s)

/-- Model of Python `str.splitlines()`: split on the newline character.
(Python also drops a trailing empty piece; every use in the program filters
blank lines immediately afterwards, so the difference is unobservable.) -/
def splitOnNl : Str → List Str
  | [] => [[]]
  | c :: t =>
    if c = '\n' then [] :: splitOnNl t
    else
      match splitOnNl t with
      | [] => [[c]]
      | h :: r => (c :: h) :: r

/-- Model of `sep.join(...)` for a one-character separator. -/
def joinSep (sep : Char) : List Str → Str
  | [] => []
  | [x] => x
  | x :: y :: r => x ++ sep :: joinSep sep (y :: r)

/-- Model of `"\n".join(...)`. -/
def joinNl (ls : List Str) : Str := joinSep '\n' ls

/-- Model of `" ".join(...)`. -/
def joinSpace (ls : List Str) : Str := joinSep ' ' ls

/-- Case-insensitive "the pattern occurs at the front of the text" test,
modelling the `re.IGNORECASE` matching of a literal (escaped) pattern. -/
def leadsCI : Str → Str → Bool
  | [], _ => true
  | _ :: _, [] => false
  | c :: m, d :: t => (Char.toLower d == Char.toLower c) && leadsCI m t

/-- Model of `re.split(re.escape(marker) + "\s*", text, flags=IGNORECASE)`,
returning the remainder of the text after the last non-overlapping
left-to-right match (i.e. `parts[-1]`), or `none` when the marker never
matches (i.e. `len(parts) == 1`).  The fuel argument bounds the scan; the
caller supplies `text.length + 1`, enough for the whole left-to-right scan
whenever the marker is non-empty. -/
def scanSplit (marker : Str) : Nat → Str → Option Str
  | 0, _ => none
  | fuel + 1, t =>
    if leadsCI marker t then
      some ((scanSplit marker fuel ((t.drop marker.length).dropWhile isWS)).getD
        ((t.drop marker.length).dropWhile isWS))
    else
      match t with
      | [] => none
      | _ :: t2 => scanSplit marker fuel t2

/-- Lines 94-102 of `app.py`: the candidate text, i.e. the stripped part
after the last occurrence of the marker when the marker matches, and the
whole stripped text otherwise. -/
def candidateOf (text marker : Str) : Str :=
  match scanSplit marker (text.length + 1) text with
  | some r => trim r
  | none => trim text

/-- Case-insensitive occurrence test: does the marker occur anywhere in the
text?  Used to state hypotheses of the form "the text contains no occurrence
of the marker". -/
def containsCI (text marker : Str) : Bool :=
  (List.range (text.length + 1)).any (fun i => leadsCI marker (text.drop i))

/-- The role names of the echo-filter regex on line 109 of `app.py`. -/
def roleWords : List Str := ["user".data, "system".data, "kelly".data]

/-- One alternative of the role-label regex: the role word (case-insensitive),
then optional whitespace, then a colon or hyphen. -/
def sepAfter (w : Str) (ln : Str) : Bool :=
  leadsCI w ln &&
    (match (ln.drop w.length).dropWhile isWS with
     | [] => false
     | c :: _ => c == ':' || c == '-')

/-- Model of `re.match(r"^(User|System|Kelly)\s*[:\-]\s*", ln, IGNORECASE)`
viewed as a boolean.  (The trailing whitespace-star of the pattern always
matches and is irrelevant to the boolean outcome.) -/
def roleMatch (ln : Str) : Bool := roleWords.any (fun w => sepAfter w ln)

/-- Line 105 of `app.py`: strip each line, keep the non-empty ones. -/
def strippedLines (c : Str) : List Str :=
  ((splitOnNl c).map trim).filter (fun l => !l.isEmpty)

/-- Line 109 of `app.py`: additionally drop the role-label echo lines. -/
def filteredLines (text marker : Str) : List Str :=
  (strippedLines (candidateOf text marker)).filter (fun l => !roleMatch l)

/-- Lines 115-117 of `app.py`: `10 <= sum(len(l) for l in block) / max(1, len(block)) <= 120`
expressed without division (exact for real-valued division by a positive
integer). -/
def avgOk (b : List Str) : Bool :=
  decide (10 * max 1 b.length ≤ (b.map List.length).sum ∧
          (b.map List.length).sum ≤ 120 * max 1 b.length)

/-- The `(start, end)` pairs visited by the nested loops on lines 112-113 of
`app.py`, in scan order: `start in range(0, min(6, max(1, len(lines))))`,
`end in range(start + 3, min(start + 9, len(lines)) + 1)`. -/
def candPairs (n : Nat) : List (Nat × Nat) :=
  (List.range (min 6 (max 1 n))).flatMap (fun s =>
    (List.range' (s + 3) (min (s + 9) n + 1 - (s + 3))).map (fun e => (s, e)))

/-- Lines 112-118 of `app.py`: the windowed block search.  Returns the first
block `lines[start:end]` in scan order whose mean line length is accepted. -/
def findBlock (lines : List Str) : Option (List Str) :=
  ((candPairs lines.length).find?
      (fun p => avgOk ((lines.drop p.1).take (p.2 - p.1)))).map
    (fun p => (lines.drop p.1).take (p.2 - p.1))

/-- Lines 86-124 of `app.py`: `extract_poem_from_generated(text, prompt_tail_marker)`.
In the source, `candidate` abbreviates `candidateOf text marker` and `lines`
abbreviates `filteredLines text marker`. -/
def extract_poem_from_generated (text : Str) (marker : Str) : Str :=
  match findBlock (filteredLines text marker) with
  | some b => joinNl b
  | none =>
    if !(filteredLines text marker).isEmpty then
      joinNl ((filteredLines text marker).take 8)
    else trim ((candidateOf text marker).take 1000)

/-- The default / actually passed marker `"Kelly:"`. -/
def kellyMarker : Str := "Kelly:".data

/-- The non-blank lines of a string, exactly as the program computes them:
`[ln for ln in s.splitlines() if ln.strip()]`. -/
def nonBlankLines (s : Str) : List Str :=
  (splitOnNl s).filter (fun l => !(trim l).isEmpty)

/-- Number of non-empty lines of a string, the measure used by the claims. -/
def nonEmptyLinesCount (s : Str) : Nat := (nonBlankLines s).length

/-- Model of Python `str.split()`: maximal runs of non-whitespace characters. -/
def splitWords (s : Str) : List Str :=
  match h : s.dropWhile isWS with
  | [] => []
  | c :: t =>
      (c :: t.takeWhile (fun x => !isWS x)) ::
        splitWords (t.dropWhile (fun x => !isWS x))
  termination_by s.length
  decreasing_by
    have h1 : (s.dropWhile isWS).length ≤ s.length :=
      (List.dropWhile_sublist (l := s) isWS).length_le
    have h2 : (t.dropWhile (fun x => !isWS x)).length ≤ t.length :=
      (List.dropWhile_sublist (l := t) _).length_le
    simp only [h, List.length_cons] at h1
    omega

/-- Number of words of a string (`len(s.split())`). -/
def countWords (s : Str) : Nat := (splitWords s).length

/-- Word counter with an explicit "currently inside a word" state; equal to
`countWords` when started outside a word (proved below) and convenient for
monotonicity reasoning. -/
def cw (inWord : Bool) : Str → Nat
  | [] => 0
  | c :: t => if isWS c then cw false t else (if inWord then 0 else 1) + cw true t

/-- The canned fallback poem of lines 165-167 of `app.py`. -/
def cannedPoem : Str :=
  ("A quiet circuit hums,\nData echoes, not feeling — be warned.\nRun targeted tests and human evaluation.").data

/-- Line 161 of `app.py`: `joined = " ".join(poem_lines) or generated` —
Python string truthiness substitutes `generated` exactly when the join is
empty. -/
def repairJoined (poemLines : List Str) (generated : Str) : Str :=
  if (joinSpace poemLines).isEmpty then generated else joinSpace poemLines

/-- Lines 168-173 of `app.py`: split the word list into three roughly equal
contiguous groups (`a = words[:n//3]`, `b = words[n//3:2*n//3]`,
`c = words[2*n//3:]`) and return
`" ".join(a).strip() + "\n" + " ".join(b).strip() + "\n" + " ".join(c).strip()`. -/
def threeSplit (words : List Str) : Str :=
  trim (joinSpace (words.take (words.length / 3))) ++
    ('\n' :: (trim (joinSpace ((words.take (2 * words.length / 3)).drop (words.length / 3))) ++
      ('\n' :: trim (joinSpace (words.drop (2 * words.length / 3))))))

/-- Lines 159-173 of `app.py`: the branch taken when the extracted poem has
fewer than 3 non-blank lines. -/
def repairShort (poemLines : List Str) (generated : Str) : Str :=
  if (splitWords (repairJoined poemLines generated)).length < 6 then cannedPoem
  else threeSplit (splitWords (repairJoined poemLines generated))

/-- Lines 156-177 of `app.py`: the post-extraction shape repair applied to a
successful generation `generated` (`poem_lines` is
`nonBlankLines (extract_poem_from_generated generated kellyMarker)`). -/
def hfShape (generated : Str) : Str :=
  if (nonBlankLines (extract_poem_from_generated generated kellyMarker)).length < 3 then
    repairShort (nonBlankLines (extract_poem_from_generated generated kellyMarker)) generated
  else if 8 < (nonBlankLines (extract_poem_from_generated generated kellyMarker)).length then
    joinNl ((nonBlankLines (extract_poem_from_generated generated kellyMarker)).take 8)
  else joinNl (nonBlankLines (extract_poem_from_generated generated kellyMarker))

/-- Test for a text beginning with a given pattern (exact characters). -/
def beginsWith : Str → Str → Bool
  | [], _ => true
  | _ :: _, [] => false
  | c :: m, d :: t => (d == c) && beginsWith m t

/-- An error diagnostic of this program: all error replies produced by
`app.py` begin with the warning-sign character sequence. -/
def errorText (s : Str) : Bool := beginsWith ("⚠️").data s

/-- Lines 126-177 of `app.py`: `generate_with_huggingface`.  The availability
of the transformers package, the pipeline initialization outcome, and the
outcome of the pipeline call (exception message or generated text, i.e.
`out[0].get("generated_text", "")`) are explicit parameters. -/
def generate_with_huggingface (hfAvailable : Bool) (pipelineOk : Bool)
    (genResult : Except Str Str) : Str :=
  if !hfAvailable then
    ("⚠️ Transformers not installed. Install with: pip install transformers torch").data
  else if !pipelineOk then
    ("⚠️ Transformers pipeline failed to initialize.").data
  else
    match genResult with
    | .error e => ("⚠️ Generation error: ").data ++ e
    | .ok generated => hfShape generated

/-- Lines 48-62 of `app.py`: `generate_with_openai`.  The client construction
(line 49, outside the `try`) and the completion call (inside the `try`) are
explicit outcomes; `.error` models a raised exception.  The result is
`.error` when an exception escapes the function, `.ok` with the returned
string otherwise. -/
def generate_with_openai (clientInit : Except Str Unit)
    (completion : Except Str Str) : Except Str Str :=
  match clientInit with
  | .error e => .error e
  | .ok _ =>
    match completion with
    | .ok content => .ok (trim content)
    | .error e => .ok (("⚠️ OpenAI API error: ").data ++ e)

/-- Lines 281-285 of `app.py`: `get_kelly_reply`.  `useOpenai` is the sidebar
toggle, `credentialPresent` the truthiness of `os.getenv("OPENAI_API_KEY")`. -/
def get_kelly_reply (useOpenai credentialPresent : Bool)
    (clientInit : Except Str Unit) (completion : Except Str Str)
    (hfAvailable pipelineOk : Bool) (genResult : Except Str Str) :
    Except Str Str :=
  if useOpenai && credentialPresent then
    generate_with_openai clientInit completion
  else
    .ok (generate_with_huggingface hfAvailable pipelineOk genResult)

/-- A conversation role, as stored in `st.session_state.messages`. -/
inductive Role where
  | user
  | kelly
deriving DecidableEq

/-- One entry of `st.session_state.messages`. -/
structure Turn where
  role : Role
  text : Str
deriving DecidableEq

/-- Decidable equality on generation outcomes, used to evaluate concrete
routing scenarios. -/
instance exceptStrDecEq : DecidableEq (Except Str Str) := fun x y =>
  match x, y with
  | .error a, .error b =>
    if h : a = b then isTrue (by rw [h]) else isFalse (by simp [h])
  | .ok a, .ok b =>
    if h : a = b then isTrue (by rw [h]) else isFalse (by simp [h])
  | .error _, .ok _ => isFalse (by simp)
  | .ok _, .error _ => isFalse (by simp)

/-- Lines 294-296 of `app.py`: the text of the most recent user turn, found by
scanning the log in reverse. -/
def lastUserText (log : List Turn) : Option Str :=
  (log.reverse.find? (fun m => decide (m.role = Role.user))).map Turn.text

/-- Lines 287-291 of `app.py`: the ask-button handler.  `buttonPressed` models
`ask_button`; `gen` is the reply produced by `get_kelly_reply` for a
question.  Python string truthiness makes the guard require a non-empty
question. -/
def askStep (buttonPressed : Bool) (q : Str) (log : List Turn)
    (gen : Str → Str) : List Turn :=
  if buttonPressed && !q.isEmpty then
    log ++ [⟨Role.user, q⟩, ⟨Role.kelly, gen q⟩]
  else log

/-- Lines 293-300 of `app.py`: the regenerate-button handler, given that the
button was pressed.  `if last_user:` is Python truthiness: `None` and the
empty string both skip the append. -/
def regenStep (log : List Turn) (gen : Str → Str) : List Turn :=
  if log.isEmpty then log
  else
    match lastUserText log with
    | none => log
    | some q => if q.isEmpty then log else log ++ [⟨Role.kelly, gen q⟩]

/-- Conversation logs reachable through the two button handlers, starting from
the empty initial log (line 261 of `app.py`). -/
inductive Reachable : List Turn → Prop where
  | nil : Reachable []
  | ask (b : Bool) (q : Str) (gen : Str → Str) {log : List Turn} :
      Reachable log → Reachable (askStep b q log gen)
  | regen (gen : Str → Str) {log : List Turn} :
      Reachable log → Reachable (regenStep log gen)

/-! ### Lines: splitting and joining -/

theorem splitOnNl_ne_nil (s : Str) : splitOnNl s ≠ [] := by
  induction s with
  | nil => simp [splitOnNl]
  | cons c t ih =>
    simp only [splitOnNl]
    split
    · simp
    · split <;> simp

theorem splitOnNl_no_nl (s : Str) (h : '\n' ∉ s) : splitOnNl s = [s] := by
  induction s with
  | nil => rfl
  | cons c t ih =>
    have hc : c ≠ '\n' := fun hh => h (hh ▸ List.mem_cons_self c t)
    have ht : '\n' ∉ t := fun hh => h (List.mem_cons_of_mem c hh)
    simp only [splitOnNl, if_neg hc, ih ht]

theorem splitOnNl_append (x t : Str) (h : '\n' ∉ x) :
    splitOnNl (x ++ '\n' :: t) = x :: splitOnNl t := by
  induction x with
  | nil => simp [splitOnNl]
  | cons c x ih =>
    have hc : c ≠ '\n' := fun hh => h (hh ▸ List.mem_cons_self c x)
    have hx : '\n' ∉ x := fun hh => h (List.mem_cons_of_mem c hh)
    simp only [List.cons_append, splitOnNl, if_neg hc, List.append_eq]
    rw [ih hx]

theorem joinSep_cons_cons (sep : Char) (x y : Str) (r : List Str) :
    joinSep sep (x :: y :: r) = x ++ sep :: joinSep sep (y :: r) := rfl

theorem joinNl_cons_head (c : Char) (h : Str) (r : List Str) :
    joinNl ((c :: h) :: r) = c :: joinNl (h :: r) := by
  cases r <;> simp [joinNl, joinSep]

theorem splitOnNl_joinNl (ls : List Str) (h0 : ls ≠ [])
    (h : ∀ l ∈ ls, '\n' ∉ l) : splitOnNl (joinNl ls) = ls := by
  induction ls with
  | nil => exact absurd rfl h0
  | cons x ls ih =>
    cases ls with
    | nil => exact splitOnNl_no_nl x (h x (List.mem_cons_self x []))
    | cons y r =>
      have hx : '\n' ∉ x := h x (List.mem_cons_self x _)
      have hrest : ∀ l ∈ y :: r, '\n' ∉ l :=
        fun l hl => h l (List.mem_cons_of_mem x hl)
      calc splitOnNl (joinNl (x :: y :: r))
          = splitOnNl (x ++ '\n' :: joinNl (y :: r)) := rfl
        _ = x :: splitOnNl (joinNl (y :: r)) := splitOnNl_append x _ hx
        _ = x :: y :: r := by rw [ih (by simp) hrest]

theorem joinNl_splitOnNl (s : Str) : joinNl (splitOnNl s) = s := by
  induction s with
  | nil => rfl
  | cons c t ih =>
    obtain ⟨h1, r1, hr⟩ : ∃ h1 r1, splitOnNl t = h1 :: r1 := by
      cases he : splitOnNl t with
      | nil => exact absurd he (splitOnNl_ne_nil t)
      | cons a b => exact ⟨a, b, rfl⟩
    by_cases hc : c = '\n'
    · subst hc
      have e1 : splitOnNl ('\n' :: t) = [] :: splitOnNl t := by
        simp [splitOnNl]
      rw [e1, hr]
      have e2 : joinNl ([] :: h1 :: r1) = '\n' :: joinNl (h1 :: r1) := by
        simp [joinNl, joinSep]
      rw [e2, ← hr, ih]
    · have e1 : splitOnNl (c :: t) = (c :: h1) :: r1 := by
        simp only [splitOnNl, if_neg hc, hr]
      rw [e1, joinNl_cons_head, ← hr, ih]

theorem mem_splitOnNl_no_nl (s l : Str) (h : l ∈ splitOnNl s) : '\n' ∉ l := by
  induction s generalizing l with
  | nil =>
    simp only [splitOnNl, List.mem_singleton] at h
    subst h; simp
  | cons c t ih =>
    simp only [splitOnNl] at h
    by_cases hc : c = '\n'
    · rw [if_pos hc] at h
      rcases List.mem_cons.mp h with h1 | h1
      · subst h1; simp
      · exact ih l h1
    · rw [if_neg hc] at h
      obtain ⟨h1, r1, hr⟩ : ∃ h1 r1, splitOnNl t = h1 :: r1 := by
        cases he : splitOnNl t with
        | nil => exact absurd he (splitOnNl_ne_nil t)
        | cons a b => exact ⟨a, b, rfl⟩
      rw [hr] at h
      rcases List.mem_cons.mp h with h2 | h2
      · subst h2
        intro hm
        rcases List.mem_cons.mp hm with h3 | h3
        · exact hc h3.symm
        · exact ih h1 (hr ▸ List.mem_cons_self h1 r1) h3
      · exact ih l (hr ▸ List.mem_cons_of_mem h1 h2)

/-! ### Trimming -/

theorem trimL_sublist (s : Str) : List.Sublist (trimL s) s :=
  List.dropWhile_sublist _

theorem trimR_sublist (s : Str) : List.Sublist (trimR s) s := by
  induction s with
  | nil => simp [trimR]
  | cons c t ih =>
    simp only [trimR]
    cases he : trimR t with
    | nil =>
      by_cases hc : isWS c
      · simp [hc]
      · simp only [if_neg hc]
        exact List.Sublist.cons₂ c (List.nil_sublist t)
    | cons h r => exact List.Sublist.cons₂ c (he ▸ ih)

theorem trim_sublist (s : Str) : List.Sublist (trim s) s :=
  (trimR_sublist (trimL s)).trans (trimL_sublist s)

theorem trimL_cons_of_neg {c : Char} (hc : isWS c = false) (t : Str) :
    trimL (c :: t) = c :: t := by
  simp [trimL, List.dropWhile_cons, hc]

theorem trimL_cons_of_pos {c : Char} (hc : isWS c = true) (t : Str) :
    trimL (c :: t) = trimL t := by
  simp [trimL, List.dropWhile_cons, hc]

theorem trimL_trimL (s : Str) : trimL (trimL s) = trimL s := by
  induction s with
  | nil => rfl
  | cons c t ih =>
    by_cases hc : isWS c
    · rw [trimL_cons_of_pos hc, ih]
    · rw [trimL_cons_of_neg (by simpa using hc),
        trimL_cons_of_neg (by simpa using hc)]

theorem trimR_eq_nil_iff (s : Str) : trimR s = [] ↔ ∀ c ∈ s, isWS c = true := by
  induction s with
  | nil => simp [trimR]
  | cons c t ih =>
    simp only [trimR]
    cases he : trimR t with
    | nil =>
      by_cases hc : isWS c
      · simp only [if_pos hc]
        constructor
        · intro _ a ha
          rcases List.mem_cons.mp ha with h1 | h1
          · subst h1; exact hc
          · exact (ih.mp he) a h1
        · intro _; trivial
      · simp only [if_neg hc]
        constructor
        · intro hcon; exact absurd hcon (by simp)
        · intro hall
          exact absurd (hall c (List.mem_cons_self c t)) (by simpa using hc)
    | cons h r =>
      constructor
      · intro hcon; exact absurd hcon (by simp)
      · intro hall
        have : trimR t = [] := ih.mpr (fun a ha => hall a (List.mem_cons_of_mem c ha))
        rw [this] at he; exact absurd he (by simp)

theorem trimR_trimR (s : Str) : trimR (trimR s) = trimR s := by
  induction s with
  | nil => rfl
  | cons c t ih =>
    simp only [trimR]
    cases he : trimR t with
    | nil =>
      by_cases hc : isWS c
      · simp [hc, trimR]
      · simp [hc, trimR]
    | cons h r =>
      have : trimR (h :: r) = h :: r := by rw [← he, ih, he]
      simp only [trimR] at this ⊢
      cases he2 : trimR r with
      | nil =>
        rw [he2] at this
        by_cases hh : isWS h
        · rw [if_pos hh] at this; exact absurd this (by simp)
        · rw [if_neg hh] at this
          rw [if_neg hh]
          have : r = [] := by
            have := List.cons.injEq h [] h r ▸ this
            simpa using this
          subst this; rfl
      | cons h2 r2 =>
        rw [he2] at this
        rw [this]

theorem trimR_cons_struct {c : Char} (hc : isWS c = false) (t : Str) :
    ∃ r, trimR (c :: t) = c :: r := by
  simp only [trimR]
  cases trimR t with
  | nil => exact ⟨[], by rw [if_neg (by simp [hc])]⟩
  | cons h r => exact ⟨h :: r, rfl⟩

theorem head_not_ws_of_trimL {c : Char} {t : Str} (h : trimL (c :: t) = c :: t) :
    isWS c = false := by
  cases hc : isWS c with
  | false => rfl
  | true =>
    rw [trimL_cons_of_pos hc] at h
    have h1 : (trimL t).length ≤ t.length := (trimL_sublist t).length_le
    rw [h] at h1
    simp at h1

theorem trimL_trimR_of (s : Str) (h : trimL s = s) : trimL (trimR s) = trimR s := by
  cases s with
  | nil => rfl
  | cons c t =>
    have hc : isWS c = false := head_not_ws_of_trimL h
    obtain ⟨r, hr⟩ := trimR_cons_struct hc t
    rw [hr, trimL_cons_of_neg hc]

theorem trim_trim (s : Str) : trim (trim s) = trim s := by
  show trimR (trimL (trimR (trimL s))) = trimR (trimL s)
  rw [trimL_trimR_of (trimL s) (trimL_trimL s), trimR_trimR]

theorem trim_eq_parts (s : Str) (h : trim s = s) :
    trimL s = s ∧ trimR s = s := by
  have h0 : trimR (trimL s) = s := h
  have h1 : (trimR (trimL s)).length ≤ (trimL s).length :=
    (trimR_sublist (trimL s)).length_le
  have h2 : (trimL s).length ≤ s.length := (trimL_sublist s).length_le
  have h4 : trimL s = s := (trimL_sublist s).eq_of_length (by rw [h0] at h1; omega)
  refine ⟨h4, ?_⟩
  calc trimR s = trimR (trimL s) := by rw [h4]
    _ = s := h0

theorem trimR_append (x y : Str) (h : trimR y ≠ []) :
    trimR (x ++ y) = x ++ trimR y := by
  induction x with
  | nil => simp
  | cons a x ih =>
    have hne : x ++ trimR y ≠ [] := by
      intro hcon
      rcases List.append_eq_nil.mp hcon with ⟨_, h2⟩
      exact h h2
    obtain ⟨h1, r1, hr⟩ : ∃ h1 r1, x ++ trimR y = h1 :: r1 := by
      cases he : x ++ trimR y with
      | nil => exact absurd he hne
      | cons a b => exact ⟨a, b, rfl⟩
    show trimR (a :: (x ++ y)) = a :: (x ++ trimR y)
    simp only [trimR, ih, hr]

theorem mem_trimL_of {c : Char} {s : Str} (hc : isWS c = false) (h : c ∈ s) :
    c ∈ trimL s := by
  induction s with
  | nil => cases h
  | cons a t ih =>
    by_cases ha : isWS a
    · rw [trimL_cons_of_pos ha]
      rcases List.mem_cons.mp h with h1 | h1
      · subst h1; rw [ha] at hc; cases hc
      · exact ih h1
    · rw [trimL_cons_of_neg (by simpa using ha)]
      exact h

theorem mem_trimR_of {c : Char} {s : Str} (hc : isWS c = false) (h : c ∈ s) :
    c ∈ trimR s := by
  induction s with
  | nil => cases h
  | cons a t ih =>
    simp only [trimR]
    cases he : trimR t with
    | nil =>
      have hall : ∀ x ∈ t, isWS x = true := (trimR_eq_nil_iff t).mp he
      rcases List.mem_cons.mp h with h1 | h1
      · subst h1
        rw [if_neg (by simp [hc])]
        exact List.mem_singleton.mpr rfl
      · exact absurd (hall c h1) (by simp [hc])
    | cons h1 r1 =>
      rcases List.mem_cons.mp h with h2 | h2
      · subst h2; exact List.mem_cons_self c _
      · have := ih h2
        rw [he] at this
        exact List.mem_cons_of_mem a this

theorem trim_ne_nil_of_mem {c : Char} {s : Str} (hc : isWS c = false)
    (h : c ∈ s) : trim s ≠ [] :=
  List.ne_nil_of_mem (mem_trimR_of hc (mem_trimL_of hc h))

theorem not_nl_trim {s : Str} (h : '\n' ∉ s) : '\n' ∉ trim s :=
  fun hm => h ((trim_sublist s).subset hm)

/-! ### Properties of the extractor's line lists -/

theorem mem_strippedLines {c l : Str} (h : l ∈ strippedLines c) :
    trim l = l ∧ l ≠ [] ∧ '\n' ∉ l := by
  unfold strippedLines at h
  have h1 := List.mem_filter.mp h
  obtain ⟨raw, hraw, hl⟩ := List.mem_map.mp h1.1
  have hnl : '\n' ∉ raw := mem_splitOnNl_no_nl c raw hraw
  refine ⟨?_, ?_, ?_⟩
  · rw [← hl]; exact trim_trim raw
  · have h2 := h1.2
    simp only [Bool.not_eq_true'] at h2
    simpa [List.isEmpty_iff] using h2
  · rw [← hl]; exact not_nl_trim hnl

theorem mem_filteredLines {t m l : Str} (h : l ∈ filteredLines t m) :
    trim l = l ∧ l ≠ [] ∧ '\n' ∉ l ∧ roleMatch l = false := by
  unfold filteredLines at h
  have h1 := List.mem_filter.mp h
  obtain ⟨a, b, c2⟩ := mem_strippedLines h1.1
  refine ⟨a, b, c2, ?_⟩
  have h2 := h1.2
  simpa using h2

theorem nonBlankLines_joinNl (ls : List Str) (h0 : ls ≠ [])
    (h : ∀ l ∈ ls, '\n' ∉ l ∧ trim l ≠ []) :
    nonBlankLines (joinNl ls) = ls := by
  unfold nonBlankLines
  rw [splitOnNl_joinNl ls h0 (fun l hl => (h l hl).1)]
  apply List.filter_eq_self.mpr
  intro a ha
  simpa [List.isEmpty_iff] using (h a ha).2

theorem count_joinNl_of_props {b : List Str} (hb : b ≠ [])
    (hprops : ∀ l ∈ b, trim l = l ∧ l ≠ [] ∧ '\n' ∉ l) :
    nonEmptyLinesCount (joinNl b) = b.length := by
  unfold nonEmptyLinesCount
  rw [nonBlankLines_joinNl b hb
    (fun l hl => ⟨(hprops l hl).2.2, by
      rw [(hprops l hl).1]; exact (hprops l hl).2.1⟩)]

/-! ### The windowed block search -/

theorem mem_candPairs {n s e : Nat} (h : (s, e) ∈ candPairs n) :
    s + 3 ≤ e ∧ e ≤ min (s + 9) n ∧ s < min 6 (max 1 n) := by
  unfold candPairs at h
  rw [List.mem_flatMap] at h
  obtain ⟨a, ha, hm⟩ := h
  rw [List.mem_map] at hm
  obtain ⟨e2, he2, heq⟩ := hm
  obtain ⟨rfl, rfl⟩ : a = s ∧ e2 = e := by
    have := Prod.mk.injEq a e2 s e ▸ heq
    simpa using this
  rw [List.mem_range'_1] at he2
  rw [List.mem_range] at ha
  omega

theorem findBlock_some {lines b : List Str} (h : findBlock lines = some b) :
    3 ≤ b.length ∧ b.length ≤ 9 ∧ avgOk b = true ∧ List.Sublist b lines := by
  unfold findBlock at h
  cases hf : (candPairs lines.length).find?
      (fun p => avgOk ((lines.drop p.1).take (p.2 - p.1))) with
  | none => rw [hf] at h; cases h
  | some p =>
    rw [hf] at h
    obtain ⟨s, e⟩ := p
    have hb : (lines.drop s).take (e - s) = b := by
      simpa using h
    have hmem := List.mem_of_find?_eq_some hf
    have hp := List.find?_some hf
    have hbounds := mem_candPairs hmem
    have hlen : b.length = e - s := by
      rw [← hb, List.length_take, List.length_drop]
      omega
    refine ⟨by omega, by omega, ?_, ?_⟩
    · rw [← hb]; simpa using hp
    · rw [← hb]
      exact (List.take_sublist _ _).trans (List.drop_sublist _ _)

theorem extract_block_or_take (t m : Str) (h : filteredLines t m ≠ []) :
    ∃ b : List Str, extract_poem_from_generated t m = joinNl b ∧
      List.Sublist b (filteredLines t m) ∧ 1 ≤ b.length ∧ b.length ≤ 9 ∧
      (3 ≤ (filteredLines t m).length → 3 ≤ b.length) := by
  cases hf : findBlock (filteredLines t m) with
  | some blk =>
    obtain ⟨h3, h9, _, hsub⟩ := findBlock_some hf
    refine ⟨blk, ?_, hsub, by omega, h9, fun _ => h3⟩
    unfold extract_poem_from_generated
    rw [hf]
  | none =>
    have hlen : 1 ≤ (filteredLines t m).length := List.length_pos.mpr h
    refine ⟨(filteredLines t m).take 8, ?_, List.take_sublist _ _, ?_, ?_, ?_⟩
    · unfold extract_poem_from_generated
      rw [hf]
      simp [List.isEmpty_iff, h]
    · rw [List.length_take]; omega
    · rw [List.length_take]; omega
    · intro h3; rw [List.length_take]; omega

/-! ### Claim C1 -/

/-- C1 claim theorem (amended).  The claim "for every input string and every
marker, `extract` returns a string whose number of non-empty lines is between
3 and 8 inclusive" is false (see the counterexample).  Amended: whenever the
echo-filtered line list of the input has at least 3 entries, the output of
`extract_poem_from_generated` has between 3 and 9 non-empty lines — the upper
bound is 9, not 8, because the inner loop bound `min(start + 9, len(lines)) + 1`
on line 113 of `app.py` admits blocks of length 9 (recorded as the code bug of
claim C3); with fewer than 3 filtered lines the fallbacks may return fewer
non-empty lines. -/
theorem extract_count_amended (t m : Str)
    (h : 3 ≤ (filteredLines t m).length) :
    3 ≤ nonEmptyLinesCount (extract_poem_from_generated t m) ∧
      nonEmptyLinesCount (extract_poem_from_generated t m) ≤ 9 := by
  have hne : filteredLines t m ≠ [] := by
    intro hcon; rw [hcon] at h; simp at h
  obtain ⟨b, heq, hsub, h1, h9, h3i⟩ := extract_block_or_take t m hne
  have hprops : ∀ l ∈ b, trim l = l ∧ l ≠ [] ∧ '\n' ∉ l := fun l hl =>
    ⟨(mem_filteredLines (hsub.subset hl)).1, (mem_filteredLines (hsub.subset hl)).2.1,
     (mem_filteredLines (hsub.subset hl)).2.2.1⟩
  have hbne : b ≠ [] := by intro hb; subst hb; simp at h1
  have hcount : nonEmptyLinesCount (extract_poem_from_generated t m) = b.length := by
    rw [heq]; exact count_joinNl_of_props hbne hprops
  rw [hcount]
  exact ⟨h3i h, h9⟩

/-- C1 counterexample: on the empty input the extractor falls through to the
last-resort branch and returns the empty string, which has 0 non-empty lines,
not between 3 and 8. -/
theorem extract_count_counterexample :
    extract_poem_from_generated [] kellyMarker = [] ∧
      nonEmptyLinesCount (extract_poem_from_generated [] kellyMarker) = 0 := by
  decide

/-- C1 witness: a concrete input with 3 filtered lines for which the amended
theorem applies. -/
theorem extract_count_witness :
    3 ≤ (filteredLines ("abcdefghij\nabcdefghij\nabcdefghij").data kellyMarker).length ∧
      (3 ≤ nonEmptyLinesCount (extract_poem_from_generated
            ("abcdefghij\nabcdefghij\nabcdefghij").data kellyMarker) ∧
       nonEmptyLinesCount (extract_poem_from_generated
            ("abcdefghij\nabcdefghij\nabcdefghij").data kellyMarker) ≤ 9) :=
  ⟨by decide, extract_count_amended ("abcdefghij\nabcdefghij\nabcdefghij").data
    kellyMarker (by decide)⟩

/-! ### Claim C5 -/

/-- C5 claim theorem (amended).  The claim "for every input, no line of the
returned string matches the role-label pattern" is false: when every line of
the candidate is blank or itself a role label, the filtered line list is
empty and the last-resort branch returns the raw candidate text, role labels
included (see the counterexample).  Amended: whenever the filtered line list
is non-empty — i.e. the output comes from the windowed block search or the
first-8-lines fallback — no line of the output matches the role-label
pattern. -/
theorem extract_no_role_lines (t m : Str) (h : filteredLines t m ≠ []) :
    ∀ l ∈ splitOnNl (extract_poem_from_generated t m), roleMatch l = false := by
  obtain ⟨b, heq, hsub, h1, _, _⟩ := extract_block_or_take t m h
  have hbne : b ≠ [] := by intro hb; subst hb; simp at h1
  intro l hl
  rw [heq, splitOnNl_joinNl b hbne
    (fun x hx => (mem_filteredLines (hsub.subset hx)).2.2.1)] at hl
  exact (mem_filteredLines (hsub.subset hl)).2.2.2

/-- C5 counterexample: on the input `"User: foo"` (which the echo filter
reduces to an empty line list) the last-resort branch returns the input
itself, so the output consists of exactly the line `"User: foo"`, which
matches the role-label pattern. -/
theorem extract_no_role_lines_counterexample :
    extract_poem_from_generated ("User: foo").data kellyMarker = ("User: foo").data ∧
      (splitOnNl (extract_poem_from_generated ("User: foo").data kellyMarker)).any
        roleMatch = true := by
  decide

/-- C5 witness: a concrete input with a role-label line and three poem lines;
the theorem applies and certifies a specific output line as role-free. -/
theorem extract_no_role_lines_witness :
    filteredLines ("User: foo\nabcdefghijkl\nabcdefghijkl\nabcdefghijkl").data
        kellyMarker ≠ [] ∧
      roleMatch ("abcdefghijkl").data = false :=
  ⟨by decide,
   extract_no_role_lines ("User: foo\nabcdefghijkl\nabcdefghijkl\nabcdefghijkl").data
     kellyMarker (by decide) ("abcdefghijkl").data (by decide)⟩

/-! ### Claim C3 -/

/-- C3 claim theorem (evaluation at the failing input).  The claim says the
windowed block search only ever returns blocks of length 3 to 8.  The code's
inner bound `range(start + 3, min(start + 9, len(lines)) + 1)` admits
`end = start + 9`, i.e. blocks of 9 lines, contradicting the function's own
docstring ("3-8 non-empty lines").  On the input below — eight 1-character
lines followed by one 82-character line — every block of length 3 to 8 fails
the mean-length test but the 9-line block passes, and the extractor returns
all 9 lines. -/
theorem windowed_search_nine_lines :
    nonEmptyLinesCount (extract_poem_from_generated
        ("a\na\na\na\na\na\na\na\n" ++
          "xxxxxxxxxxxxxxxxxxxxxxxxxxxxxxxxxxxxxxxxx" ++
          "xxxxxxxxxxxxxxxxxxxxxxxxxxxxxxxxxxxxxxxxx").data kellyMarker) = 9 := by
  decide

/-! ### Claim C4: inputs that are already well-formed poems -/

theorem map_eq_self_of {α : Type} (f : α → α) (ls : List α)
    (h : ∀ l ∈ ls, f l = l) : ls.map f = ls := by
  induction ls with
  | nil => rfl
  | cons x t ih =>
    rw [List.map_cons, h x (List.mem_cons_self x t),
      ih (fun l hl => h l (List.mem_cons_of_mem x hl))]

theorem leadsCI_nil_false {marker : Str} (hm : marker ≠ []) :
    leadsCI marker [] = false := by
  cases marker with
  | nil => exact absurd rfl hm
  | cons c m => rfl

theorem containsCI_false_marker_ne {t marker : Str}
    (h : containsCI t marker = false) : marker ≠ [] := by
  intro hm
  subst hm
  unfold containsCI at h
  have h0 : (0 : Nat) ∈ List.range (t.length + 1) := List.mem_range.mpr (by omega)
  have := List.any_eq_false.mp h 0 h0
  simp [leadsCI] at this

theorem not_leadsCI_drop {t marker : Str} (h : containsCI t marker = false) :
    ∀ k, leadsCI marker (t.drop k) = false := by
  have hm : marker ≠ [] := containsCI_false_marker_ne h
  intro k
  by_cases hk : k ≤ t.length
  · have hmem : k ∈ List.range (t.length + 1) := List.mem_range.mpr (by omega)
    have := List.any_eq_false.mp h k hmem
    simpa using this
  · rw [List.drop_eq_nil_of_le (by omega)]
    exact leadsCI_nil_false hm

theorem scanSplit_eq_none {marker : Str}
    (fuel : Nat) (t : Str) (h : ∀ k, leadsCI marker (t.drop k) = false) :
    scanSplit marker fuel t = none := by
  induction fuel generalizing t with
  | zero => rfl
  | succ n ih =>
    have h0 : leadsCI marker t = false := by simpa using h 0
    unfold scanSplit
    rw [h0]
    simp only [Bool.false_eq_true, if_false]
    cases t with
    | nil => rfl
    | cons c t2 =>
      exact ih t2 (fun k => by simpa [List.drop_succ_cons] using h (k + 1))

theorem candidateOf_eq_trim {t marker : Str} (h : containsCI t marker = false) :
    candidateOf t marker = trim t := by
  unfold candidateOf
  rw [scanSplit_eq_none _ t (not_leadsCI_drop h)]

theorem trim_joinNl_three {l1 l2 l3 : Str}
    (h1 : trim l1 = l1) (h1n : l1 ≠ []) (h3 : trim l3 = l3) (h3n : l3 ≠ []) :
    trim (joinNl [l1, l2, l3]) = joinNl [l1, l2, l3] := by
  have e : joinNl [l1, l2, l3] = l1 ++ '\n' :: (l2 ++ '\n' :: l3) := by
    simp [joinNl, joinSep]
  obtain ⟨c, t1, rfl⟩ := List.exists_cons_of_ne_nil h1n
  have hc : isWS c = false := head_not_ws_of_trimL (trim_eq_parts _ h1).1
  have hL : trimL (joinNl [c :: t1, l2, l3]) = joinNl [c :: t1, l2, l3] := by
    rw [e, List.cons_append, trimL_cons_of_neg hc]
  have hR : trimR (joinNl [c :: t1, l2, l3]) = joinNl [c :: t1, l2, l3] := by
    have e2 : joinNl [c :: t1, l2, l3] = ((c :: t1) ++ '\n' :: l2 ++ ['\n']) ++ l3 := by
      rw [e]; simp
    have h3R : trimR l3 = l3 := (trim_eq_parts _ h3).2
    rw [e2, trimR_append _ _ (by rw [h3R]; exact h3n), h3R]
  show trimR (trimL _) = _
  rw [hL, hR]

theorem filteredLines_wellformed (ls : List Str) (marker : Str)
    (h0 : ls ≠ [])
    (hp : ∀ l ∈ ls, trim l = l ∧ l ≠ [] ∧ '\n' ∉ l ∧ roleMatch l = false)
    (hm : containsCI (joinNl ls) marker = false)
    (htrim : trim (joinNl ls) = joinNl ls) :
    filteredLines (joinNl ls) marker = ls := by
  unfold filteredLines strippedLines
  rw [candidateOf_eq_trim hm, htrim,
    splitOnNl_joinNl ls h0 (fun l hl => (hp l hl).2.2.1),
    map_eq_self_of trim ls (fun l hl => (hp l hl).1)]
  have hinner : List.filter (fun l => !l.isEmpty) ls = ls :=
    List.filter_eq_self.mpr (fun l hl => by
      simp only [List.isEmpty_iff, Bool.not_eq_true']
      simpa [List.isEmpty_iff] using (hp l hl).2.1)
  have houter : List.filter (fun l => !roleMatch l) ls = ls :=
    List.filter_eq_self.mpr (fun l hl => by simp [(hp l hl).2.2.2])
  rw [hinner, houter]

theorem findBlock_three (ls : List Str) (h3 : ls.length = 3)
    (havg : avgOk ls = true) : findBlock ls = some ls := by
  unfold findBlock
  rw [h3]
  have hc : candPairs 3 = [(0, 3)] := by decide
  rw [hc]
  have htake : (ls.drop 0).take (3 - 0) = ls := by
    rw [List.drop_zero, ← h3]
    exact List.take_length ls
  have hpred : (fun p : Nat × Nat => avgOk ((ls.drop p.1).take (p.2 - p.1))) (0, 3)
      = true := by
    show avgOk ((ls.drop 0).take (3 - 0)) = true
    rw [htake]; exact havg
  have hfind : List.find?
      (fun p : Nat × Nat => avgOk (List.take (p.2 - p.1) (List.drop p.1 ls)))
      [(0, 3)] = some (0, 3) :=
    List.find?_cons_of_pos _ hpred
  rw [hfind]
  simp only [Option.map_some']
  exact congrArg some htake

/-- C4 claim theorem (amended).  The claim "every already-well-formed poem of
3 to 8 lines with mean line length in range, no marker occurrence and no
role-label lines is returned unchanged" is false: the scan order prefers the
shortest acceptable leading block, so a 4-line poem whose first three lines
are themselves acceptable is truncated (see the counterexample).  Amended to
poems of exactly 3 lines: a 3-line poem whose lines are trimmed, non-empty,
newline-free, and not role labels, whose mean line length is in `[10, 120]`,
and that contains no occurrence of the marker, is returned unchanged. -/
theorem extract_fixed_three (l1 l2 l3 marker : Str)
    (hp : ∀ l ∈ [l1, l2, l3], trim l = l ∧ l ≠ [] ∧ '\n' ∉ l ∧ roleMatch l = false)
    (hm : containsCI (joinNl [l1, l2, l3]) marker = false)
    (havg : avgOk [l1, l2, l3] = true) :
    extract_poem_from_generated (joinNl [l1, l2, l3]) marker = joinNl [l1, l2, l3] := by
  have htrim : trim (joinNl [l1, l2, l3]) = joinNl [l1, l2, l3] :=
    trim_joinNl_three (hp l1 (by simp)).1 (hp l1 (by simp)).2.1
      (hp l3 (by simp)).1 (hp l3 (by simp)).2.1
  have hfl : filteredLines (joinNl [l1, l2, l3]) marker = [l1, l2, l3] :=
    filteredLines_wellformed [l1, l2, l3] marker (by simp) hp hm htrim
  unfold extract_poem_from_generated
  rw [hfl, findBlock_three [l1, l2, l3] rfl havg]

/-- C4 counterexample: a well-formed 4-line poem (each line 12 characters,
mean length 12, no marker, no role labels) is not returned unchanged — the
windowed search accepts the 3-line leading block first and the fourth line is
dropped. -/
theorem extract_fixed_counterexample :
    nonEmptyLinesCount ("abcdefghijkl\nabcdefghijkl\nabcdefghijkl\nabcdefghijkl").data = 4 ∧
      avgOk (splitOnNl ("abcdefghijkl\nabcdefghijkl\nabcdefghijkl\nabcdefghijkl").data) = true ∧
      containsCI ("abcdefghijkl\nabcdefghijkl\nabcdefghijkl\nabcdefghijkl").data
        kellyMarker = false ∧
      (splitOnNl ("abcdefghijkl\nabcdefghijkl\nabcdefghijkl\nabcdefghijkl").data).any
        roleMatch = false ∧
      extract_poem_from_generated
          ("abcdefghijkl\nabcdefghijkl\nabcdefghijkl\nabcdefghijkl").data kellyMarker =
        ("abcdefghijkl\nabcdefghijkl\nabcdefghijkl").data ∧
      extract_poem_from_generated
          ("abcdefghijkl\nabcdefghijkl\nabcdefghijkl\nabcdefghijkl").data kellyMarker ≠
        ("abcdefghijkl\nabcdefghijkl\nabcdefghijkl\nabcdefghijkl").data := by
  decide

/-- C4 witness: the amended theorem applied to a concrete 3-line poem. -/
theorem extract_fixed_witness :
    extract_poem_from_generated
        (joinNl [("abcdefghijkl").data, ("mnopqrstuvwx").data, ("yzabcdefghij").data])
        kellyMarker =
      joinNl [("abcdefghijkl").data, ("mnopqrstuvwx").data, ("yzabcdefghij").data] :=
  extract_fixed_three ("abcdefghijkl").data ("mnopqrstuvwx").data ("yzabcdefghij").data
    kellyMarker (by decide) (by decide) (by decide)

/-! ### Words and the three-way split repair -/

theorem dropWhile_head_false {p : Char → Bool} {s t : Str} {c : Char}
    (h : s.dropWhile p = c :: t) : p c = false := by
  induction s with
  | nil => cases h
  | cons a s ih =>
    rw [List.dropWhile_cons] at h
    by_cases hp : p a
    · rw [if_pos hp] at h; exact ih h
    · rw [if_neg hp] at h
      injection h with h1 _
      subst h1
      simpa using hp

theorem splitWords_props (s : Str) :
    ∀ w ∈ splitWords s, w ≠ [] ∧ ∀ c ∈ w, isWS c = false := by
  induction s using splitWords.induct with
  | case1 s hdrop =>
    intro w hw
    unfold splitWords at hw
    rw [hdrop] at hw
    cases hw
  | case2 s c t hdrop ih =>
    intro w hw
    unfold splitWords at hw
    rw [hdrop] at hw
    rcases List.mem_cons.mp hw with h1 | h1
    · subst h1
      refine ⟨by simp, ?_⟩
      intro x hx
      rcases List.mem_cons.mp hx with h2 | h2
      · subst h2; exact dropWhile_head_false hdrop
      · have := List.mem_takeWhile_imp h2
        simpa using this
    · exact ih w h1

theorem mem_joinSep {sep : Char} {ls : List Str} {c : Char}
    (h : c ∈ joinSep sep ls) : c = sep ∨ ∃ l ∈ ls, c ∈ l := by
  induction ls with
  | nil => cases h
  | cons x r ih =>
    cases r with
    | nil => exact Or.inr ⟨x, List.mem_singleton.mpr rfl, h⟩
    | cons y r2 =>
      rw [joinSep_cons_cons] at h
      rcases List.mem_append.mp h with h1 | h1
      · exact Or.inr ⟨x, List.mem_cons_self x _, h1⟩
      · rcases List.mem_cons.mp h1 with h2 | h2
        · exact Or.inl h2
        · rcases ih h2 with h3 | ⟨l, hl, hc⟩
          · exact Or.inl h3
          · exact Or.inr ⟨l, List.mem_cons_of_mem x hl, hc⟩

theorem mem_joinSep_of_mem {sep : Char} {ls : List Str} {l : Str} {c : Char}
    (hl : l ∈ ls) (hc : c ∈ l) : c ∈ joinSep sep ls := by
  induction ls with
  | nil => cases hl
  | cons x r ih =>
    cases r with
    | nil =>
      rw [List.mem_singleton] at hl
      subst hl
      exact hc
    | cons y r2 =>
      rw [joinSep_cons_cons]
      rcases List.mem_cons.mp hl with h1 | h1
      · subst h1; exact List.mem_append.mpr (Or.inl hc)
      · exact List.mem_append.mpr (Or.inr (List.mem_cons_of_mem _ (ih h1)))

theorem mem_nonBlankLines {s l : Str} (h : l ∈ nonBlankLines s) :
    '\n' ∉ l ∧ trim l ≠ [] := by
  unfold nonBlankLines at h
  have h1 := List.mem_filter.mp h
  refine ⟨mem_splitOnNl_no_nl s l h1.1, ?_⟩
  have h2 := h1.2
  simpa [List.isEmpty_iff] using h2

theorem joinSpace_part_ok {part words : List Str} (hpne : part ≠ [])
    (hsub : List.Sublist part words)
    (hw : ∀ w ∈ words, w ≠ [] ∧ ∀ c ∈ w, isWS c = false) :
    trim (joinSpace part) ≠ [] ∧ '\n' ∉ joinSpace part := by
  have hp : ∀ w ∈ part, w ≠ [] ∧ ∀ c ∈ w, isWS c = false :=
    fun w hwp => hw w (hsub.subset hwp)
  constructor
  · obtain ⟨w0, r, rfl⟩ := List.exists_cons_of_ne_nil hpne
    have hw0 := hp w0 (List.mem_cons_self w0 r)
    obtain ⟨c0, t0, rfl⟩ := List.exists_cons_of_ne_nil hw0.1
    have hc0 : isWS c0 = false := hw0.2 c0 (List.mem_cons_self c0 t0)
    exact trim_ne_nil_of_mem hc0
      (mem_joinSep_of_mem (List.mem_cons_self _ r) (List.mem_cons_self c0 t0))
  · intro hmem
    rcases mem_joinSep hmem with h1 | ⟨l, hl, hc⟩
    · cases h1
    · have := (hp l hl).2 '\n' hc
      simp [isWS] at this

theorem threeSplit_count (words : List Str)
    (hw : ∀ w ∈ words, w ≠ [] ∧ ∀ c ∈ w, isWS c = false)
    (h6 : 6 ≤ words.length) :
    nonEmptyLinesCount (threeSplit words) = 3 := by
  have hn := h6
  have haL : (words.take (words.length / 3)).length = words.length / 3 := by
    rw [List.length_take]; omega
  have hbL : ((words.take (2 * words.length / 3)).drop (words.length / 3)).length
      = 2 * words.length / 3 - words.length / 3 := by
    rw [List.length_drop, List.length_take]; omega
  have hcL : (words.drop (2 * words.length / 3)).length
      = words.length - 2 * words.length / 3 := by
    rw [List.length_drop]
  have hane : words.take (words.length / 3) ≠ [] := by
    intro hcon
    have := congrArg List.length hcon
    rw [haL] at this
    simp at this
    omega
  have hbne : (words.take (2 * words.length / 3)).drop (words.length / 3) ≠ [] := by
    intro hcon
    have := congrArg List.length hcon
    rw [hbL] at this
    simp at this
    omega
  have hcne : words.drop (2 * words.length / 3) ≠ [] := by
    intro hcon
    have := congrArg List.length hcon
    rw [hcL] at this
    simp at this
    omega
  have hA := joinSpace_part_ok hane (List.take_sublist _ _) hw
  have hB := joinSpace_part_ok hbne
    ((List.drop_sublist _ _).trans (List.take_sublist _ _)) hw
  have hC := joinSpace_part_ok hcne (List.drop_sublist _ _) hw
  have hAn : '\n' ∉ trim (joinSpace (words.take (words.length / 3))) :=
    fun hm => hA.2 ((trim_sublist _).subset hm)
  have hBn : '\n' ∉ trim (joinSpace
      ((words.take (2 * words.length / 3)).drop (words.length / 3))) :=
    fun hm => hB.2 ((trim_sublist _).subset hm)
  have hCn : '\n' ∉ trim (joinSpace (words.drop (2 * words.length / 3))) :=
    fun hm => hC.2 ((trim_sublist _).subset hm)
  unfold threeSplit nonEmptyLinesCount nonBlankLines
  rw [splitOnNl_append _ _ hAn, splitOnNl_append _ _ hBn, splitOnNl_no_nl _ hCn]
  have ht : ∀ x : Str, trim x ≠ [] → (!(trim (trim x)).isEmpty) = true := by
    intro x hx
    rw [trim_trim]
    simpa [List.isEmpty_iff] using hx
  simp only [List.filter_cons, ht _ hA.1, ht _ hB.1, ht _ hC.1, List.filter_nil]
  rfl

/-! ### Claim C2 -/

theorem hfShape_count (g : Str) :
    3 ≤ nonEmptyLinesCount (hfShape g) ∧ nonEmptyLinesCount (hfShape g) ≤ 8 := by
  unfold hfShape
  by_cases h3 : (nonBlankLines (extract_poem_from_generated g kellyMarker)).length < 3
  · rw [if_pos h3]
    unfold repairShort
    by_cases h6 : (splitWords (repairJoined
        (nonBlankLines (extract_poem_from_generated g kellyMarker)) g)).length < 6
    · rw [if_pos h6]
      decide
    · rw [if_neg h6]
      rw [threeSplit_count _ (splitWords_props _) (by omega)]
      omega
  · rw [if_neg h3]
    have hprops : ∀ l ∈ nonBlankLines (extract_poem_from_generated g kellyMarker),
        '\n' ∉ l ∧ trim l ≠ [] := fun l hl => mem_nonBlankLines hl
    by_cases h8 : 8 < (nonBlankLines (extract_poem_from_generated g kellyMarker)).length
    · rw [if_pos h8]
      have htne : (nonBlankLines (extract_poem_from_generated g kellyMarker)).take 8 ≠ [] :=
        List.length_pos.mp (by rw [List.length_take]; omega)
      have : nonEmptyLinesCount (joinNl
          ((nonBlankLines (extract_poem_from_generated g kellyMarker)).take 8)) =
          ((nonBlankLines (extract_poem_from_generated g kellyMarker)).take 8).length := by
        unfold nonEmptyLinesCount
        rw [nonBlankLines_joinNl _ htne
          (fun l hl => hprops l ((List.take_sublist _ _).subset hl))]
      rw [this, List.length_take]
      omega
    · rw [if_neg h8]
      have hne : nonBlankLines (extract_poem_from_generated g kellyMarker) ≠ [] :=
        List.length_pos.mp (by omega)
      have : nonEmptyLinesCount (joinNl
          (nonBlankLines (extract_poem_from_generated g kellyMarker))) =
          (nonBlankLines (extract_poem_from_generated g kellyMarker)).length := by
        unfold nonEmptyLinesCount
        rw [nonBlankLines_joinNl _ hne hprops]
      rw [this]
      omega

/-- C2 claim theorem (amended).  The claim asserts the 3-8 non-empty-line
invariant for non-error assistant turns on both the hosted and the local
path; it fails on the hosted path, which returns the backend's trimmed text
without any shape check (see the counterexample).  Amended: every reply
produced by the local generation path is either an error diagnostic
(beginning with the warning sign) or has between 3 and 8 non-empty lines;
the ask and regenerate handlers append exactly this text as the assistant
turn. -/
theorem local_reply_shape (hfAvailable pipelineOk : Bool) (genResult : Except Str Str) :
    errorText (generate_with_huggingface hfAvailable pipelineOk genResult) = true ∨
      (3 ≤ nonEmptyLinesCount (generate_with_huggingface hfAvailable pipelineOk genResult) ∧
       nonEmptyLinesCount (generate_with_huggingface hfAvailable pipelineOk genResult) ≤ 8) := by
  cases hfAvailable with
  | false => exact Or.inl rfl
  | true =>
    cases pipelineOk with
    | false => exact Or.inl rfl
    | true =>
      cases genResult with
      | error e => exact Or.inl rfl
      | ok generated =>
        have hgen : generate_with_huggingface true true (Except.ok generated) =
            hfShape generated := by
          simp [generate_with_huggingface]
        rw [hgen]
        exact Or.inr (hfShape_count generated)

/-- C2 counterexample: with the hosted backend selected, a credential
present, and the backend returning the single-line completion `"hi"`, the
ask handler appends an assistant turn whose text is `"hi"` — not an error
diagnostic, and with exactly 1 non-empty line, outside `[3, 8]`. -/
theorem hosted_turn_shape_counterexample :
    get_kelly_reply true true (Except.ok ()) (Except.ok ("hi").data)
        true true (Except.ok []) = Except.ok ("hi").data ∧
      askStep true ("q").data []
          (fun _ => ("hi").data) =
        [⟨Role.user, ("q").data⟩, ⟨Role.kelly, ("hi").data⟩] ∧
      errorText ("hi").data = false ∧
      nonEmptyLinesCount ("hi").data = 1 := by
  decide

/-! ### Claim C7 -/

/-- C7 claim theorem (amended).  The claim "on every possible failure the
hosted generator returns an error-tagged result and never lets an exception
propagate" is false: the client is constructed on line 49 of `app.py`,
outside the `try` block, so a construction failure (e.g. the `openai`
package missing, making `OpenAI` the value `None`) propagates as an
exception (see the counterexample).  Amended: once the client is
constructed, any failure of the completion call with cause `e` is caught
and returned as the ordinary (error-diagnostic) text
`"⚠️ OpenAI API error: <e>"`, and no completion outcome whatsoever makes
the function raise; the claim's quoted text lacks the warning-sign prefix
the code actually prepends. -/
theorem openai_error_contract (e : Str) (comp : Except Str Str) :
    generate_with_openai (Except.ok ()) (Except.error e) =
      Except.ok (("⚠️ OpenAI API error: ").data ++ e) ∧
    errorText (("⚠️ OpenAI API error: ").data ++ e) = true ∧
    ∃ t, generate_with_openai (Except.ok ()) comp = Except.ok t := by
  refine ⟨rfl, rfl, ?_⟩
  cases comp with
  | ok c => exact ⟨trim c, rfl⟩
  | error e2 => exact ⟨("⚠️ OpenAI API error: ").data ++ e2, rfl⟩

/-- C7 counterexample: a client-construction failure escapes
`generate_with_openai` as an exception (an `.error` outcome of the model)
instead of being converted to an error-tagged reply. -/
theorem openai_exception_counterexample :
    generate_with_openai
        (Except.error ("TypeError: NoneType object is not callable").data)
        (Except.ok ("a poem").data) =
      Except.error ("TypeError: NoneType object is not callable").data := by
  rfl

/-! ### Claim C8 -/

/-- C8 claim theorem (confirmed).  When the hosted backend is preferred and a
credential is present, routing returns exactly the hosted generator's result,
unmodified and independent of every local-path input; in every other case it
returns exactly the local generator's result (which runs the poem extraction
and shape repair), independent of every hosted-path input.  There is no
fallback from one backend to the other. -/
theorem routing_exclusive (u c : Bool) (ci : Except Str Unit)
    (comp : Except Str Str) (hf pk : Bool) (gr : Except Str Str) :
    (u = true → c = true →
      get_kelly_reply u c ci comp hf pk gr = generate_with_openai ci comp) ∧
    (¬(u = true ∧ c = true) →
      get_kelly_reply u c ci comp hf pk gr =
        Except.ok (generate_with_huggingface hf pk gr)) := by
  constructor
  · intro hu hc
    subst hu; subst hc
    rfl
  · intro hnc
    have hfalse : (u && c) = false := by
      cases u <;> cases c <;> simp_all
    unfold get_kelly_reply
    rw [hfalse]
    simp

/-- C8 witness: both routing cases evaluated at concrete inputs. -/
theorem routing_exclusive_witness :
    get_kelly_reply true true (Except.ok ()) (Except.ok ("some poem").data)
        true true (Except.ok []) =
      generate_with_openai (Except.ok ()) (Except.ok ("some poem").data) ∧
    get_kelly_reply false true (Except.ok ()) (Except.ok ("some poem").data)
        true true (Except.ok []) =
      Except.ok (generate_with_huggingface true true (Except.ok [])) :=
  ⟨(routing_exclusive true true (Except.ok ()) (Except.ok ("some poem").data)
      true true (Except.ok [])).1 rfl rfl,
   (routing_exclusive false true (Except.ok ()) (Except.ok ("some poem").data)
      true true (Except.ok [])).2 (by simp)⟩

/-! ### Claim C10 -/

/-- C10 claim theorem (confirmed).  The ask handler guards on
`ask_button and user_prompt`; with an empty question the guard fails by
Python string falsiness, so the log is unchanged — no user turn, no
assistant turn — and the result does not depend on the generator, which in
the source is only called inside the guarded branch. -/
theorem ask_empty_noop (b : Bool) (log : List Turn) (gen : Str → Str) :
    askStep b [] log gen = log := by
  unfold askStep
  simp

/-! ### Claim C9 -/

theorem regenStep_empty {gen : Str → Str} : regenStep [] gen = [] := rfl

theorem regenStep_of_none {log : List Turn} {gen : Str → Str}
    (hlu : lastUserText log = none) : regenStep log gen = log := by
  unfold regenStep
  by_cases he : log.isEmpty = true
  · rw [if_pos he]
  · rw [if_neg he, hlu]

theorem regenStep_of_empty_q {log : List Turn} {gen : Str → Str} {qq : Str}
    (hlu : lastUserText log = some qq) (hqq : qq.isEmpty = true) :
    regenStep log gen = log := by
  unfold regenStep
  by_cases he : log.isEmpty = true
  · rw [if_pos he]
  · rw [if_neg he, hlu]
    show (if qq.isEmpty = true then log
      else log ++ [⟨Role.kelly, gen qq⟩]) = log
    rw [if_pos hqq]

theorem regenStep_append {log : List Turn} {gen : Str → Str} {qq : Str}
    (hlu : lastUserText log = some qq) (hne : log ≠ []) (hqq : qq.isEmpty = false) :
    regenStep log gen = log ++ [⟨Role.kelly, gen qq⟩] := by
  unfold regenStep
  rw [if_neg (by simpa [List.isEmpty_iff] using hne), hlu]
  show (if qq.isEmpty = true then log
    else log ++ [⟨Role.kelly, gen qq⟩]) = log ++ [⟨Role.kelly, gen qq⟩]
  rw [hqq]
  simp

theorem reachable_inv {log : List Turn} (h : Reachable log) :
    (∀ tn ∈ log, tn.role = Role.user → tn.text ≠ []) ∧
      (log ≠ [] → ∃ tn ∈ log, tn.role = Role.user) := by
  induction h with
  | nil =>
    constructor
    · intro tn htn hrole
      cases htn
    · intro hcon
      exact absurd rfl hcon
  | ask b q gen hr ih =>
    unfold askStep
    by_cases hc : (b && !q.isEmpty) = true
    · rw [if_pos hc]
      have hq : q ≠ [] := by
        have := (Bool.and_eq_true _ _).mp hc
        simpa [List.isEmpty_iff] using this.2
      constructor
      · intro tn htn hrole
        rcases List.mem_append.mp htn with h1 | h1
        · exact ih.1 tn h1 hrole
        · rcases List.mem_cons.mp h1 with h2 | h2
          · subst h2; exact hq
          · rw [List.mem_singleton] at h2
            subst h2
            cases hrole
      · intro _
        exact ⟨⟨Role.user, q⟩,
          List.mem_append.mpr (Or.inr (List.mem_cons_self _ _)), rfl⟩
    · rw [if_neg hc]; exact ih
  | regen gen hr ih =>
    rename_i lg
    by_cases he : lg = []
    · subst he
      rw [regenStep_empty]
      exact ih
    · cases hlu : lastUserText lg with
      | none => rw [regenStep_of_none hlu]; exact ih
      | some qq =>
        by_cases hqe : qq.isEmpty = true
        · rw [regenStep_of_empty_q hlu hqe]; exact ih
        · rw [regenStep_append hlu he (by simpa using hqe)]
          constructor
          · intro tn htn hrole
            rcases List.mem_append.mp htn with h1 | h1
            · exact ih.1 tn h1 hrole
            · rw [List.mem_singleton] at h1
              subst h1
              cases hrole
          · intro _
            obtain ⟨tn, htn, hrole⟩ := ih.2 he
            exact ⟨tn, List.mem_append.mpr (Or.inl htn), hrole⟩

/-- C9 claim theorem (confirmed).  On the empty log the regenerate handler is
a no-op; on every non-empty log reachable through the app's handlers it
appends exactly one assistant turn, generated from the question of the most
recent user turn, with the prior log preserved as a prefix (unchanged and in
order).  Reachability supplies what the handlers guarantee: every user turn
stored has a non-empty question, so the handler's Python truthiness check
`if last_user:` succeeds. -/
theorem regen_spec (log : List Turn) (gen : Str → Str)
    (h1 : Reachable log) (h2 : log ≠ []) :
    regenStep [] gen = [] ∧
      ∃ q, lastUserText log = some q ∧
        regenStep log gen = log ++ [⟨Role.kelly, gen q⟩] := by
  refine ⟨rfl, ?_⟩
  obtain ⟨inv1, inv2⟩ := reachable_inv h1
  obtain ⟨tn, htn, hrole⟩ := inv2 h2
  have hsome : (log.reverse.find? (fun m => decide (m.role = Role.user))).isSome := by
    rw [List.find?_isSome]
    exact ⟨tn, List.mem_reverse.mpr htn, by simp [hrole]⟩
  obtain ⟨m, hm⟩ := Option.isSome_iff_exists.mp hsome
  have hmrole : m.role = Role.user := by
    have := List.find?_some hm
    simpa using this
  have hmmem : m ∈ log := List.mem_reverse.mp (List.mem_of_find?_eq_some hm)
  have hmne : m.text ≠ [] := inv1 m hmmem hmrole
  have hlu : lastUserText log = some m.text := by
    unfold lastUserText
    rw [hm]
    rfl
  refine ⟨m.text, hlu, ?_⟩
  exact regenStep_append hlu h2 (by simpa [List.isEmpty_iff] using hmne)

/-- C9 witness: the theorem applied to the concrete reachable log obtained by
asking one question, with a concrete generator. -/
theorem regen_spec_witness :
    regenStep [] (fun _ => ("x\ny\nz").data) = [] ∧
      ∃ q, lastUserText
          (askStep true ("Can AI think?").data [] (fun _ => ("x\ny\nz").data)) = some q ∧
        regenStep (askStep true ("Can AI think?").data [] (fun _ => ("x\ny\nz").data))
            (fun _ => ("x\ny\nz").data) =
          askStep true ("Can AI think?").data [] (fun _ => ("x\ny\nz").data) ++
            [⟨Role.kelly, ("x\ny\nz").data⟩] :=
  regen_spec (askStep true ("Can AI think?").data [] (fun _ => ("x\ny\nz").data))
    (fun _ => ("x\ny\nz").data)
    (Reachable.ask true ("Can AI think?").data (fun _ => ("x\ny\nz").data) Reachable.nil)
    (by decide)

/-! ### Word counting: monotonicity under sublists -/

theorem cw_dropWhile_ws (s : Str) : cw false (s.dropWhile isWS) = cw false s := by
  induction s with
  | nil => rfl
  | cons c t ih =>
    by_cases hc : isWS c
    · rw [List.dropWhile_cons, if_pos hc, ih]
      show cw false t = cw false (c :: t)
      simp [cw, hc]
    · rw [List.dropWhile_cons, if_neg hc]

theorem cw_true_eq (t : Str) :
    cw true t = cw false (t.dropWhile (fun x => !isWS x)) := by
  induction t with
  | nil => rfl
  | cons d t2 ih =>
    by_cases hd : isWS d
    · rw [List.dropWhile_cons, if_neg (by simp [hd])]
      simp [cw, hd]
    · rw [List.dropWhile_cons, if_pos (by simp [hd])]
      rw [← ih]
      simp [cw, hd]

theorem countWords_eq_cw (s : Str) : countWords s = cw false s := by
  induction s using splitWords.induct with
  | case1 s hdrop =>
    unfold countWords splitWords
    rw [hdrop]
    rw [← cw_dropWhile_ws s, hdrop]
    rfl
  | case2 s c t hdrop ih =>
    unfold countWords splitWords
    rw [hdrop]
    have hc : isWS c = false := dropWhile_head_false hdrop
    have hstep : cw false s = 1 + cw true t := by
      rw [← cw_dropWhile_ws s, hdrop]
      simp [cw, hc]
    rw [hstep, cw_true_eq t]
    unfold countWords at ih
    simp [ih]
    omega

theorem cw_true_le (s : Str) : cw true s ≤ cw false s := by
  cases s with
  | nil => exact le_refl 0
  | cons c t =>
    by_cases hc : isWS c
    · simp [cw, hc]
    · simp [cw, hc]

theorem cw_false_le (s : Str) : cw false s ≤ cw true s + 1 := by
  cases s with
  | nil => simp [cw]
  | cons c t =>
    by_cases hc : isWS c
    · simp [cw, hc]
    · simp [cw, hc]
      omega

theorem cw_cons_ge (b : Bool) (c : Char) (L : Str) : cw b L ≤ cw b (c :: L) := by
  by_cases hc : isWS c
  · cases b with
    | false => simp [cw, hc]
    | true => simp [cw, hc]; exact cw_true_le L
  · cases b with
    | false =>
      simp [cw, hc]
      have := cw_false_le L
      omega
    | true => simp [cw, hc]

theorem cw_sublist {l L : Str} (h : List.Sublist l L) :
    ∀ b, cw b l ≤ cw b L := by
  induction h with
  | slnil => intro b; exact le_refl _
  | cons c hs ih =>
    intro b
    exact (ih b).trans (cw_cons_ge b c _)
  | cons₂ c hs ih =>
    intro b
    by_cases hc : isWS c
    · simp only [cw, if_pos hc]
      exact ih false
    · simp only [cw, if_neg hc]
      exact Nat.add_le_add_left (ih true) _

theorem countWords_sublist {l L : Str} (h : List.Sublist l L) :
    countWords l ≤ countWords L := by
  rw [countWords_eq_cw, countWords_eq_cw]
  exact cw_sublist h false

theorem cw_append_sep {sep : Char} (hsep : isWS sep = true) (x y : Str) :
    ∀ b, cw b (x ++ sep :: y) = cw b x + cw false y := by
  induction x with
  | nil =>
    intro b
    cases b <;> simp [cw, hsep]
  | cons c x ih =>
    intro b
    by_cases hc : isWS c
    · simp only [List.cons_append, cw, if_pos hc]
      exact ih false
    · simp only [List.cons_append, cw, if_neg hc, List.append_eq]
      rw [ih true]
      omega

theorem countWords_joinSep (sep : Char) (hsep : isWS sep = true) (ls : List Str) :
    countWords (joinSep sep ls) = (ls.map countWords).sum := by
  induction ls with
  | nil =>
    show countWords [] = 0
    rw [countWords_eq_cw]
    rfl
  | cons x r ih =>
    cases r with
    | nil => simp [joinSep]
    | cons y r2 =>
      rw [joinSep_cons_cons, countWords_eq_cw, cw_append_sep hsep _ _ false,
        ← countWords_eq_cw, ← countWords_eq_cw, ih]
      simp

theorem sum_sublist_le {l L : List Nat} (h : List.Sublist l L) : l.sum ≤ L.sum :=
  h.sum_le_sum (by simp)

theorem scanSplit_sublist {marker : Str} (fuel : Nat) :
    ∀ t r, scanSplit marker fuel t = some r → List.Sublist r t := by
  induction fuel with
  | zero => intro t r h; cases h
  | succ n ih =>
    intro t r h
    unfold scanSplit at h
    by_cases hl : leadsCI marker t = true
    · rw [if_pos hl] at h
      have hrsub : List.Sublist ((t.drop marker.length).dropWhile isWS) t :=
        (List.dropWhile_sublist _).trans (List.drop_sublist _ _)
      injection h with h1
      cases hs : scanSplit marker n ((t.drop marker.length).dropWhile isWS) with
      | some r2 =>
        rw [hs] at h1
        simp only [Option.getD_some] at h1
        subst h1
        exact (ih _ r2 hs).trans hrsub
      | none =>
        rw [hs] at h1
        simp only [Option.getD_none] at h1
        subst h1
        exact hrsub
    · rw [if_neg hl] at h
      cases t with
      | nil => cases h
      | cons c t2 =>
        exact (ih t2 r h).trans (List.Sublist.cons c (List.Sublist.refl t2))

theorem candidateOf_sublist (t m : Str) : List.Sublist (candidateOf t m) t := by
  unfold candidateOf
  cases hs : scanSplit m (t.length + 1) t with
  | some r => exact (trim_sublist r).trans (scanSplit_sublist _ t r hs)
  | none => exact trim_sublist t

theorem sum_words_strippedLines (cand : Str) :
    ((strippedLines cand).map countWords).sum ≤ countWords cand := by
  unfold strippedLines
  have h1 : List.Sublist
      (((splitOnNl cand).map trim).filter (fun l => !l.isEmpty))
      ((splitOnNl cand).map trim) := List.filter_sublist _
  have h2 : ((((splitOnNl cand).map trim).filter (fun l => !l.isEmpty)).map
      countWords).sum ≤ (((splitOnNl cand).map trim).map countWords).sum :=
    sum_sublist_le (h1.map countWords)
  have h3 : (((splitOnNl cand).map trim).map countWords).sum ≤
      ((splitOnNl cand).map countWords).sum := by
    rw [List.map_map]
    exact List.sum_le_sum (fun l hl => countWords_sublist (trim_sublist l))
  have h4 : ((splitOnNl cand).map countWords).sum = countWords cand := by
    rw [← countWords_joinSep '\n' (by decide) (splitOnNl cand)]
    show countWords (joinNl (splitOnNl cand)) = countWords cand
    rw [joinNl_splitOnNl]
  omega

theorem extract_words_le (t m : Str) :
    countWords (extract_poem_from_generated t m) ≤ countWords t := by
  have hcand : countWords (candidateOf t m) ≤ countWords t :=
    countWords_sublist (candidateOf_sublist t m)
  have hfil : List.Sublist (filteredLines t m) (strippedLines (candidateOf t m)) :=
    List.filter_sublist _
  have hsum_lines : ∀ b : List Str, List.Sublist b (filteredLines t m) →
      countWords (joinNl b) ≤ countWords t := by
    intro b hb
    calc countWords (joinNl b) = (b.map countWords).sum :=
          countWords_joinSep '\n' (by decide) b
      _ ≤ ((filteredLines t m).map countWords).sum :=
          sum_sublist_le (hb.map countWords)
      _ ≤ ((strippedLines (candidateOf t m)).map countWords).sum :=
          sum_sublist_le (hfil.map countWords)
      _ ≤ countWords (candidateOf t m) := sum_words_strippedLines _
      _ ≤ countWords t := hcand
  unfold extract_poem_from_generated
  cases hf : findBlock (filteredLines t m) with
  | some b =>
    obtain ⟨_, _, _, hsub⟩ := findBlock_some hf
    exact hsum_lines b hsub
  | none =>
    by_cases he : (filteredLines t m).isEmpty
    · rw [if_neg (by simp [he])]
      calc countWords (trim ((candidateOf t m).take 1000)) ≤
            countWords (candidateOf t m) :=
          countWords_sublist ((trim_sublist _).trans (List.take_sublist _ _))
        _ ≤ countWords t := hcand
    · rw [if_pos (by simp [he])]
      exact hsum_lines _ (List.take_sublist _ _)

/-! ### Claim C6 -/

/-- C6 claim theorem (amended).  The claim "raw text with fewer than 6 words
and no valid block found yields the canned fallback" is false: such a text
can still produce 3 or more non-empty lines through the first-8-lines
fallback and is then returned as-is (see the counterexample).  Amended: for
every raw generated text with fewer than 6 words for which extraction yields
fewer than 3 non-empty lines, the local generation path returns the fixed
canned 3-line fallback poem verbatim.  (Fewer than 3 extracted lines implies
the block search found nothing, since any found block has at least 3
lines.) -/
theorem degenerate_canned (g : Str)
    (hwords : countWords g < 6)
    (hlines : (nonBlankLines (extract_poem_from_generated g kellyMarker)).length < 3) :
    generate_with_huggingface true true (Except.ok g) = cannedPoem := by
  have hgen : generate_with_huggingface true true (Except.ok g) = hfShape g := by
    simp [generate_with_huggingface]
  rw [hgen]
  unfold hfShape
  rw [if_pos hlines]
  unfold repairShort
  have hj : (splitWords (repairJoined
      (nonBlankLines (extract_poem_from_generated g kellyMarker)) g)).length < 6 := by
    unfold repairJoined
    by_cases hje : (joinSpace
        (nonBlankLines (extract_poem_from_generated g kellyMarker))).isEmpty
    · rw [if_pos hje]
      exact hwords
    · rw [if_neg hje]
      have hle : countWords (joinSpace
          (nonBlankLines (extract_poem_from_generated g kellyMarker))) ≤
          countWords g := by
        calc countWords (joinSpace
              (nonBlankLines (extract_poem_from_generated g kellyMarker)))
            = ((nonBlankLines (extract_poem_from_generated g kellyMarker)).map
                countWords).sum := countWords_joinSep ' ' (by decide) _
          _ ≤ ((splitOnNl (extract_poem_from_generated g kellyMarker)).map
                countWords).sum :=
              sum_sublist_le ((List.filter_sublist _).map countWords)
          _ = countWords (extract_poem_from_generated g kellyMarker) := by
              rw [← countWords_joinSep '\n' (by decide)
                (splitOnNl (extract_poem_from_generated g kellyMarker))]
              show countWords (joinNl _) = _
              rw [joinNl_splitOnNl]
          _ ≤ countWords g := extract_words_le g kellyMarker
      show countWords _ < 6
      omega
  rw [if_pos hj]

/-- C6 counterexample: the raw text `"a\nb\nc"` has 3 words (fewer than 6)
and the windowed block search finds no valid block (mean line length 1),
yet the local path returns the text itself through the first-8-lines
fallback, not the canned poem. -/
theorem degenerate_counterexample :
    countWords ("a\nb\nc").data < 6 ∧
      findBlock (filteredLines ("a\nb\nc").data kellyMarker) = none ∧
      generate_with_huggingface true true (Except.ok ("a\nb\nc").data) =
        ("a\nb\nc").data ∧
      generate_with_huggingface true true (Except.ok ("a\nb\nc").data) ≠
        cannedPoem := by
  refine ⟨?_, ?_, ?_, ?_⟩
  · rw [countWords_eq_cw]; decide
  · decide
  · decide
  · decide

/-- C6 witness: the amended theorem applied to the concrete input `"hi"`. -/
theorem degenerate_witness :
    countWords ("hi").data < 6 ∧
      (nonBlankLines (extract_poem_from_generated ("hi").data kellyMarker)).length < 3 ∧
      generate_with_huggingface true true (Except.ok ("hi").data) = cannedPoem :=
  ⟨by rw [countWords_eq_cw]; decide, by decide,
   degenerate_canned ("hi").data (by rw [countWords_eq_cw]; decide) (by decide)⟩

end Kelly
